import Mathlib

/-!
Verification of the transcript-analysis core of the crutchwords app
(`src/services/analysisService.ts`).

The service has two entry points, `getHighlightedTranscript` and
`getSessionAnalysis`, plus two helpers, `getLexiconForLanguage` (a BCP-47
tag filter over the lexicon) and `createRegexFromLexicon` (which builds the
case-insensitive word-boundary regex `\b(t1|t2|...)\b` from the filtered
terms, escaping every term so it is matched literally).

Embedding notes:
* The master lexicon (`lexicon.json`, an externally supplied data file) is
  modelled as an explicit `List LexiconEntry` parameter of every function,
  exactly as the spec describes it ("a fixed, externally-supplied ordered
  sequence of LexiconEntry"); the TypeScript functions close over the loaded
  JSON, which is the first argument here.
* Text is modelled as `String` at the interface and `List Char` inside the
  scanner.  The regex `\b(..|..)\b` with flags `gi` over literal
  (escaped) alternatives is embedded directly: at each position, in
  left-to-right order, the first lexicon term that matches
  case-insensitively with a word boundary on both sides wins, and the scan
  resumes after the matched characters — which is exactly the JS
  `RegExp.exec` loop for this pattern (leftmost position first, then first
  alternative; the literal alternatives leave no other backtracking).
* Case-insensitivity (`i` flag, and `String.toLowerCase` used for the
  category lookup) is modelled by ASCII code-point folding (`A`–`Z` ↦
  `a`–`z`), and `\b`/`\w` by the JS word characters `[A-Za-z0-9_]`.
* JS numbers are modelled as `ℚ`; `Math.round (x * 10) / 10` becomes
  `jsRound1`, using `Math.round x = ⌊x + 1/2⌋`.
-/

namespace Crutchwords

/-- ASCII case folding on code points: `A`–`Z` (65–90) map to `a`–`z`
(97–122), everything else is fixed.  Models the JS `i` regex flag and
`String.toLowerCase` for the ASCII range. -/
def foldNat (n : Nat) : Nat := if 65 ≤ n ∧ n ≤ 90 then n + 32 else n

/-- The case-insensitive key of a character. -/
def charKey (c : Char) : Nat := foldNat c.toNat

/-- The case-insensitive key of a character list: two lists are equal up to
case iff their keys are equal. -/
def foldKey (l : List Char) : List Nat := l.map charKey

/-- Case-insensitive character equality. -/
def chEq (a b : Char) : Bool := charKey a == charKey b

/-- JS `\w` on code points: `[A-Za-z0-9_]`. -/
def isWordCharNat (n : Nat) : Bool :=
  decide ((65 ≤ n ∧ n ≤ 90) ∨ (97 ≤ n ∧ n ≤ 122) ∨ (48 ≤ n ∧ n ≤ 57) ∨ n = 95)

/-- JS `\w`: word characters `[A-Za-z0-9_]`. -/
def isWordChar (c : Char) : Bool := isWordCharNat c.toNat

/-- Whether an optional character (none = beyond either end of the string)
is a word character. -/
def optWord : Option Char → Bool
  | none => false
  | some c => isWordChar c

/-- JS `\b`: a word boundary lies between two (optional) characters iff
exactly one of them is a word character. -/
def boundaryB (a b : Option Char) : Bool := optWord a != optWord b

/-- Whitespace as used by `trim` and `split(/\s+/)` (modelled by the ASCII
whitespace characters of `Char.isWhitespace`). -/
def isWS (c : Char) : Bool := c.isWhitespace

/-- `String.prototype.trim` on the character list: drop whitespace from both
ends. -/
def trimData (l : List Char) : List Char :=
  ((l.dropWhile isWS).reverse.dropWhile isWS).reverse

/-- A lexicon entry (`LexiconEntry` of `analysis.types.ts`): `category` is an
open string ('FILLED_PAUSE' | 'DISCOURSE_MARKER' | 'PLACATING_TAG' among
others), `term` the literal surface form, `bcp47Tags` the locale tags. -/
structure LexiconEntry where
  category : String
  term : String
  language : String
  bcp47Tags : List String
  notes : String
deriving DecidableEq, Repr

/-- One output segment (`TranscriptSegment` of `analysis.types.ts`). -/
structure TranscriptSegment where
  text : String
  isFiller : Bool
  category : Option String
deriving DecidableEq, Repr

/-- The aggregate result (`AnalysisResult` of `analysis.types.ts`);
`categoryCounts` is the JS object modelled as an association list in key
insertion order. -/
structure AnalysisResult where
  totalWordCount : Nat
  totalFillerCount : Nat
  fillerDensityPercent : ℚ
  fillersPerMinute : ℚ
  categoryCounts : List (String × Nat)
deriving DecidableEq, Repr

/-- The tag test of `getLexiconForLanguage` (analysisService.ts:27):
`tag === language || tag.startsWith(language + '-')`. -/
def tagMatches (tag language : String) : Bool :=
  tag == language || List.isPrefixOf (language.data ++ ['-']) tag.data

/-- `getLexiconForLanguage` (analysisService.ts:20–31): keep the entries with
a truthy (non-empty) `term` and some tag passing `tagMatches`. -/
def getLexiconForLanguage (lexiconData : List LexiconEntry) (language : String) :
    List LexiconEntry :=
  lexiconData.filter fun e =>
    e.term != "" && e.bcp47Tags.any fun tag => tagMatches tag language

/-- The terms the compiled regex alternates over, in lexicon order
(`createRegexFromLexicon`, analysisService.ts:45–47; each term is escaped
there, so it is matched literally). -/
def termsOf (lexicon : List LexiconEntry) : List (List Char) :=
  lexicon.map fun e => e.term.data

/-- Case-insensitive split of a literal term off the front of the text:
`some (m, r)` when the text starts (up to ASCII case) with the term, where
`m` is the consumed prefix of the text — original casing — and `r` the rest. -/
def splitCI : List Char → List Char → Option (List Char × List Char)
  | s, [] => some ([], s)
  | [], _ :: _ => none
  | c :: cs, t :: ts =>
    if chEq c t then
      match splitCI cs ts with
      | some (m, r) => some (c :: m, r)
      | none => none
    else none

/-- One alternative of the regex `\b(…)\b` tried at one position: `prev` is
the character before the position.  Succeeds iff a word boundary holds
before, the term matches literally up to case, and a word boundary holds
after.  The empty-term guard is never hit from the entry points (the filter
keeps only non-empty terms); it makes the scan total. -/
def tryTermAt (prev : Option Char) (s : List Char) (t : List Char) :
    Option (List Char × List Char) :=
  if t = [] then none
  else if boundaryB prev s.head? then
    match splitCI s t with
    | some (m, r) => if boundaryB m.getLast? r.head? then some (m, r) else none
    | none => none
  else none

/-- The regex alternation at one position: the first term (in lexicon order)
that matches wins, as in JS alternation. -/
def tryTermsAt (terms : List (List Char)) (prev : Option Char) (s : List Char) :
    Option (List Char × List Char) :=
  match terms with
  | [] => none
  | t :: ts =>
    match tryTermAt prev s t with
    | some mr => some mr
    | none => tryTermsAt ts prev s

/-- The `regex.exec` scan of `getHighlightedTranscript`
(analysisService.ts:75–100) in raw form, with explicit fuel so the
recursion is structural: starting after character `prev` with the unmatched
characters `pendRev` (reversed) accumulated since the last match, it
returns the list of (text-before-match, matched-text) pairs together with
the text after the last match.  Every recursive call strictly shortens
`rest`, so any fuel above `rest.length` gives the fuel-free scan
(`rawScanF_irrel`); the fuel-exhausted branch is unreachable from
`rawScan`. -/
def rawScanF : Nat → List (List Char) → Option Char → List Char → List Char →
    List (List Char × List Char) × List Char
  | 0, _, _, pendRev, rest => ([], pendRev.reverse ++ rest)
  | fuel + 1, terms, prev, pendRev, rest =>
    match tryTermsAt terms prev rest with
    | some (m, r) =>
      ((pendRev.reverse, m) :: (rawScanF fuel terms m.getLast? [] r).1,
        (rawScanF fuel terms m.getLast? [] r).2)
    | none =>
      match rest with
      | [] => ([], pendRev.reverse)
      | c :: cs => rawScanF fuel terms (some c) (c :: pendRev) cs

/-- The exec scan with enough fuel to finish. -/
def rawScan (terms : List (List Char)) (prev : Option Char)
    (pendRev rest : List Char) : List (List Char × List Char) × List Char :=
  rawScanF (rest.length + 1) terms prev pendRev rest

/-- The characters a scan result covers: each before-text followed by its
match, in order. -/
def pairsFlat (ps : List (List Char × List Char)) : List Char :=
  ps.foldr (fun pm acc => pm.1 ++ pm.2 ++ acc) []

/-- The category lookup for one matched occurrence
(analysisService.ts:89–96): find the first filtered entry whose
lower-cased term equals the lower-cased match; `entry?.category || null`
maps a missing entry — and a falsy (empty) category string — to `null`. -/
def lookupCategory (lexicon : List LexiconEntry) (m : List Char) : Option String :=
  match lexicon.find? (fun e => foldKey e.term.data == foldKey m) with
  | none => none
  | some e => if e.category = "" then none else some e.category

/-- The segments the exec loop pushes for the match list
(analysisService.ts:75–100): a non-filler segment for each non-empty
before-text, then the filler segment for the match. -/
def segsFromPairs (lexicon : List LexiconEntry) :
    List (List Char × List Char) → List TranscriptSegment
  | [] => []
  | (pre, m) :: rest =>
    (if pre = [] then [] else [⟨String.mk pre, false, none⟩]) ++
      ⟨String.mk m, true, lookupCategory lexicon m⟩ :: segsFromPairs lexicon rest

/-- The segment list the exec loop of `getHighlightedTranscript` builds for
non-blank text (analysisService.ts:68–112): the match segments, then the
remaining text after the last match as a final non-filler segment when it
is non-empty. -/
def highlightMain (lexicon : List LexiconEntry) (text : String) :
    List TranscriptSegment :=
  segsFromPairs lexicon (rawScan (termsOf lexicon) none [] text.data).1 ++
    (if (rawScan (termsOf lexicon) none [] text.data).2 = [] then []
     else [⟨String.mk (rawScan (termsOf lexicon) none [] text.data).2, false, none⟩])

/-- `getHighlightedTranscript` (analysisService.ts:56–135).  Empty or
whitespace-only text returns the `{text: "", isFiller: false, category:
null}` sentinel; otherwise the text is scanned with the regex built from
the locale-filtered lexicon (`highlightMain`), and an empty segment list
degrades to the whole text as one non-filler segment. -/
def getHighlightedTranscript (lexiconData : List LexiconEntry) (text : String)
    (language : String := "en") : List TranscriptSegment :=
  if trimData text.data = [] then [⟨"", false, none⟩]
  else if highlightMain (getLexiconForLanguage lexiconData language) text = []
    then [⟨text, false, none⟩]
  else highlightMain (getLexiconForLanguage lexiconData language) text

/-- JS `String.prototype.split(/\s+/)`: the pieces between maximal
whitespace runs, keeping an empty piece at either end when the string
starts or ends with whitespace (the source applies it after `trim`).  A
whitespace character followed by more whitespace extends the current
separator run; otherwise it closes one piece. -/
def jsSplitWS : List Char → List (List Char)
  | [] => [[]]
  | c :: cs =>
    if isWS c then
      match cs with
      | d :: _ => if isWS d then jsSplitWS cs else [] :: jsSplitWS cs
      | [] => [] :: jsSplitWS cs
    else
      match jsSplitWS cs with
      | [] => [[c]]
      | p :: ps => (c :: p) :: ps

/-- Floor of a rational as an integer (`Int.fdiv` rounds toward `-∞`). -/
def ratFloor (q : ℚ) : ℤ := Int.fdiv q.num q.den

/-- JS `Math.round (q * 10) / 10` — round to one decimal place, halves
toward `+∞` (`Math.round x = floor (x + 1/2)`). -/
def jsRound1 (q : ℚ) : ℚ := ((ratFloor (q * 10 + 1 / 2) : ℤ) : ℚ) / 10

/-- `categoryCounts[category] = (categoryCounts[category] || 0) + 1` on the
insertion-ordered association list modelling the JS object. -/
def bumpCount : List (String × Nat) → String → List (String × Nat)
  | [], c => [(c, 1)]
  | (k, v) :: rest, c =>
    if k = c then (k, v + 1) :: rest else (k, v) :: bumpCount rest c

/-- The `matches.forEach` category tally of `getSessionAnalysis`
(analysisService.ts:183–192): for each matched string, look up its entry in
the filtered lexicon (case-insensitively) and, if found, bump that entry's
category. -/
def countCatsAux (lexicon : List LexiconEntry) (acc : List (String × Nat)) :
    List (List Char) → List (String × Nat)
  | [] => acc
  | m :: ms =>
    match lexicon.find? (fun e => foldKey e.term.data == foldKey m) with
    | some e => countCatsAux lexicon (bumpCount acc e.category) ms
    | none => countCatsAux lexicon acc ms

/-- `text.trim().split(/\s+/).filter((word) => word.length > 0).length`
(analysisService.ts:164–168). -/
def wordCountJS (text : String) : Nat :=
  ((jsSplitWS (trimData text.data)).filter fun w => !w.isEmpty).length

/-- `text.match(regex)` (analysisService.ts:171): the matched substrings of
the whole-text global scan, in order. -/
def matchesJS (lexicon : List LexiconEntry) (text : String) : List (List Char) :=
  (rawScan (termsOf lexicon) none [] text.data).1.map Prod.snd

/-- `getSessionAnalysis` (analysisService.ts:144–216).  Empty or
whitespace-only text returns all-zero counts; otherwise words are counted
by trim/split-on-whitespace/filter-non-empty, fillers by `text.match` with
the same regex as the highlighter, densities guarded against zero
denominators, and both rates rounded to one decimal place. -/
def getSessionAnalysis (lexiconData : List LexiconEntry) (text : String)
    (duration : ℚ) (language : String := "en") : AnalysisResult :=
  if trimData text.data = [] then ⟨0, 0, 0, 0, []⟩
  else
    { totalWordCount := wordCountJS text
      totalFillerCount := (matchesJS (getLexiconForLanguage lexiconData language) text).length
      fillerDensityPercent := jsRound1
        (if 0 < wordCountJS text then
          (((matchesJS (getLexiconForLanguage lexiconData language) text).length : ℚ) /
            (wordCountJS text : ℚ)) * 100
        else 0)
      fillersPerMinute := jsRound1
        (if 0 < duration then
          ((matchesJS (getLexiconForLanguage lexiconData language) text).length : ℚ) / duration
        else 0)
      categoryCounts := countCatsAux (getLexiconForLanguage lexiconData language) []
        (matchesJS (getLexiconForLanguage lexiconData language) text) }

/-- Spec-side concatenation of the `text` fields of a segment list. -/
def concatSegs : List TranscriptSegment → String
  | [] => ""
  | s :: rest => s.text ++ concatSegs rest

/-- Spec-side word count, position-by-position: `atStart` records whether a
new token may begin here (start of text or just after whitespace). -/
def countTokensAux : Bool → List Char → Nat
  | _, [] => 0
  | atStart, c :: cs =>
    if isWS c then countTokensAux true cs
    else (if atStart then 1 else 0) + countTokensAux false cs

/-- Spec-side word count: the number of maximal non-whitespace runs
("whitespace-delimited, non-empty tokens"). -/
def countTokens (l : List Char) : Nat := countTokensAux true l

/-- Sum of the per-category tallies. -/
def sumCounts (m : List (String × Nat)) : Nat := (m.map Prod.snd).sum

/-- What a segment looks like up to ASCII case: the case-folded text, the
filler flag and the category. -/
def segKey (s : TranscriptSegment) : List Nat × Bool × Option String :=
  (foldKey s.text.data, s.isFiller, s.category)

/-- The case-insensitive key of an optional character. -/
def optKey (c : Option Char) : Option Nat := c.map charKey

/-- The case-insensitive key of one scan pair (before-text, match). -/
def pairKey (pm : List Char × List Char) : List Nat × List Nat :=
  (foldKey pm.1, foldKey pm.2)

/-- A one-entry sample English lexicon used to instantiate theorems with
hypotheses at concrete inputs. -/
def lexUm : List LexiconEntry := [⟨"FILLED_PAUSE", "um", "en", ["en"], ""⟩]

/-- A one-entry sample French lexicon (matches nothing for locale "en"). -/
def lexFr : List LexiconEntry := [⟨"FILLED_PAUSE", "euh", "fr", ["fr"], ""⟩]

theorem splitCI_sound {s t m r : List Char} (h : splitCI s t = some (m, r)) :
    s = m ++ r ∧ foldKey m = foldKey t := by
  induction t generalizing s m r with
  | nil =>
    simp only [splitCI, Option.some.injEq, Prod.mk.injEq] at h
    obtain ⟨hm, hr⟩ := h
    subst hm; subst hr; exact ⟨rfl, rfl⟩
  | cons t ts ih =>
    cases s with
    | nil => simp [splitCI] at h
    | cons c cs =>
      simp only [splitCI] at h
      by_cases hc : chEq c t = true
      · rw [if_pos hc] at h
        cases hsp : splitCI cs ts with
        | none => rw [hsp] at h; simp at h
        | some mr =>
          obtain ⟨m', r'⟩ := mr
          rw [hsp] at h
          simp only [Option.some.injEq, Prod.mk.injEq] at h
          obtain ⟨hm, hr⟩ := h
          subst hm; subst hr
          obtain ⟨hs, hkey⟩ := ih hsp
          refine ⟨by rw [hs]; rfl, ?_⟩
          simp only [foldKey, List.map_cons] at hkey ⊢
          rw [hkey]
          simp only [chEq, beq_iff_eq] at hc
          rw [hc]
      · rw [if_neg hc] at h; simp at h

theorem foldKey_length {a b : List Char} (h : foldKey a = foldKey b) :
    a.length = b.length := by
  have := congrArg List.length h
  simpa [foldKey] using this

theorem tryTermAt_sound {prev : Option Char} {s t m r : List Char}
    (h : tryTermAt prev s t = some (m, r)) :
    s = m ++ r ∧ m ≠ [] ∧ foldKey m = foldKey t := by
  unfold tryTermAt at h
  split at h
  · exact absurd h (by simp)
  · next ht =>
    split at h
    · split at h
      · next m' r' hsp =>
        split at h
        · simp only [Option.some.injEq, Prod.mk.injEq] at h
          obtain ⟨hm, hr⟩ := h
          subst hm; subst hr
          obtain ⟨hs, hkey⟩ := splitCI_sound hsp
          refine ⟨hs, ?_, hkey⟩
          intro hnil
          apply ht
          have := foldKey_length hkey
          rw [hnil] at this
          simpa using (List.length_eq_zero.mp this.symm)
        · exact absurd h (by simp)
      · exact absurd h (by simp)
    · exact absurd h (by simp)

theorem tryTermsAt_sound {terms : List (List Char)} {prev : Option Char}
    {s m r : List Char} (h : tryTermsAt terms prev s = some (m, r)) :
    s = m ++ r ∧ m ≠ [] ∧ ∃ t ∈ terms, foldKey m = foldKey t := by
  induction terms with
  | nil => simp [tryTermsAt] at h
  | cons t ts ih =>
    simp only [tryTermsAt] at h
    cases ht : tryTermAt prev s t with
    | some mr =>
      rw [ht] at h
      simp only [Option.some.injEq] at h
      subst h
      obtain ⟨hs, hm, hkey⟩ := tryTermAt_sound ht
      refine ⟨hs, hm, t, ?_, hkey⟩
      exact List.mem_cons_self ..
    | none =>
      rw [ht] at h
      obtain ⟨hs, hm, t', ht', hkey⟩ := ih h
      exact ⟨hs, hm, t', List.mem_cons_of_mem _ ht', hkey⟩

theorem tryTermsAt_rest_lt {terms : List (List Char)} {prev : Option Char}
    {s m r : List Char} (h : tryTermsAt terms prev s = some (m, r)) :
    r.length < s.length := by
  obtain ⟨hs, hm, -⟩ := tryTermsAt_sound h
  rw [hs, List.length_append]
  cases m with
  | nil => exact absurd rfl hm
  | cons a as => simp

theorem rawScanF_irrel {terms : List (List Char)} :
    ∀ {f₁ f₂ : Nat} {prev : Option Char} {pendRev rest : List Char},
      rest.length < f₁ → rest.length < f₂ →
      rawScanF f₁ terms prev pendRev rest = rawScanF f₂ terms prev pendRev rest := by
  intro f₁
  induction f₁ with
  | zero => intro f₂ prev pendRev rest h₁ h₂; exact absurd h₁ (by omega)
  | succ f₁ ih =>
    intro f₂ prev pendRev rest h₁ h₂
    cases f₂ with
    | zero => exact absurd h₂ (by omega)
    | succ f₂ =>
      simp only [rawScanF]
      cases htry : tryTermsAt terms prev rest with
      | some mr =>
        obtain ⟨m, r⟩ := mr
        have hlt := tryTermsAt_rest_lt htry
        dsimp only
        rw [ih (show r.length < f₁ by omega) (show r.length < f₂ by omega)]
      | none =>
        dsimp only
        cases rest with
        | nil => rfl
        | cons c cs =>
          dsimp only
          exact ih (by simp at h₁ ⊢; omega) (by simp at h₂ ⊢; omega)

/-- One unfolding step of the scan, fuel hidden. -/
theorem rawScan_step (terms : List (List Char)) (prev : Option Char)
    (pendRev rest : List Char) :
    rawScan terms prev pendRev rest =
      match tryTermsAt terms prev rest with
      | some (m, r) =>
        ((pendRev.reverse, m) :: (rawScan terms m.getLast? [] r).1,
          (rawScan terms m.getLast? [] r).2)
      | none =>
        match rest with
        | [] => ([], pendRev.reverse)
        | c :: cs => rawScan terms (some c) (c :: pendRev) cs := by
  have key : ∀ f, rest.length < f →
      rawScanF f terms prev pendRev rest =
        match tryTermsAt terms prev rest with
        | some (m, r) =>
          ((pendRev.reverse, m) :: (rawScan terms m.getLast? [] r).1,
            (rawScan terms m.getLast? [] r).2)
        | none =>
          match rest with
          | [] => ([], pendRev.reverse)
          | c :: cs => rawScan terms (some c) (c :: pendRev) cs := by
    intro f hf
    cases f with
    | zero => exact absurd hf (by omega)
    | succ f =>
      simp only [rawScanF]
      cases htry : tryTermsAt terms prev rest with
      | some mr =>
        obtain ⟨m, r⟩ := mr
        have hlt := tryTermsAt_rest_lt htry
        dsimp only
        unfold rawScan
        rw [rawScanF_irrel (show r.length < f by omega)
          (show r.length < r.length + 1 by omega)]
      | none =>
        dsimp only
        cases rest with
        | nil => rfl
        | cons c cs =>
          dsimp only
          unfold rawScan
          exact rawScanF_irrel (by simp at hf; omega) (by omega)
  exact key (rest.length + 1) (by omega)

theorem pairsFlat_cons (pre m : List Char) (ps : List (List Char × List Char)) :
    pairsFlat ((pre, m) :: ps) = pre ++ m ++ pairsFlat ps := rfl

theorem rawScanF_concat {terms : List (List Char)} :
    ∀ {f : Nat} {prev : Option Char} {pendRev rest : List Char},
      rest.length < f →
      pairsFlat (rawScanF f terms prev pendRev rest).1 ++
          (rawScanF f terms prev pendRev rest).2 =
        pendRev.reverse ++ rest := by
  intro f
  induction f with
  | zero => intro prev pendRev rest h; exact absurd h (by omega)
  | succ f ih =>
    intro prev pendRev rest h
    simp only [rawScanF]
    cases htry : tryTermsAt terms prev rest with
    | some mr =>
      obtain ⟨m, r⟩ := mr
      obtain ⟨hs, hm, -⟩ := tryTermsAt_sound htry
      have hlt := tryTermsAt_rest_lt htry
      dsimp only
      rw [pairsFlat_cons, List.append_assoc, List.append_assoc,
        ih (show r.length < f by omega), hs]
      simp
    | none =>
      dsimp only
      cases rest with
      | nil => simp [pairsFlat]
      | cons c cs =>
        dsimp only
        rw [ih (show cs.length < f by simp at h; omega)]
        simp

theorem rawScan_concat {terms : List (List Char)} {prev : Option Char}
    {pendRev rest : List Char} :
    pairsFlat (rawScan terms prev pendRev rest).1 ++
        (rawScan terms prev pendRev rest).2 =
      pendRev.reverse ++ rest :=
  rawScanF_concat (by omega)

theorem rawScanF_pairs {terms : List (List Char)} :
    ∀ {f : Nat} {prev : Option Char} {pendRev rest : List Char},
      rest.length < f →
      ∀ pm ∈ (rawScanF f terms prev pendRev rest).1,
        pm.2 ≠ [] ∧ ∃ t ∈ terms, foldKey pm.2 = foldKey t := by
  intro f
  induction f with
  | zero => intro prev pendRev rest h; exact absurd h (by omega)
  | succ f ih =>
    intro prev pendRev rest h
    simp only [rawScanF]
    cases htry : tryTermsAt terms prev rest with
    | some mr =>
      obtain ⟨m, r⟩ := mr
      obtain ⟨-, hm, ht⟩ := tryTermsAt_sound htry
      have hlt := tryTermsAt_rest_lt htry
      dsimp only
      intro pm hpm
      rcases List.mem_cons.mp hpm with heq | hmem
      · subst heq; exact ⟨hm, ht⟩
      · exact ih (show r.length < f by omega) pm hmem
    | none =>
      dsimp only
      cases rest with
      | nil => intro pm hpm; simp at hpm
      | cons c cs =>
        dsimp only
        exact ih (show cs.length < f by simp at h; omega)

theorem rawScan_pairs {terms : List (List Char)} {prev : Option Char}
    {pendRev rest : List Char} :
    ∀ pm ∈ (rawScan terms prev pendRev rest).1,
      pm.2 ≠ [] ∧ ∃ t ∈ terms, foldKey pm.2 = foldKey t :=
  rawScanF_pairs (by omega)

theorem strData_append (a b : String) : (a ++ b).data = a.data ++ b.data := by
  cases a; cases b; rfl

theorem strExt {a b : String} (h : a.data = b.data) : a = b := by
  cases a; cases b; exact congrArg String.mk h

theorem strMk_data (s : String) : String.mk s.data = s := by
  cases s; rfl

theorem strMk_eq_empty_iff {l : List Char} : String.mk l = "" ↔ l = [] := by
  constructor
  · intro h; exact congrArg String.data h
  · intro h; rw [h]

theorem concatSegs_data_append (a b : List TranscriptSegment) :
    (concatSegs (a ++ b)).data = (concatSegs a).data ++ (concatSegs b).data := by
  induction a with
  | nil => rfl
  | cons s as ih =>
    simp only [List.cons_append, concatSegs, strData_append, List.append_assoc]
    exact congrArg _ ih

theorem segsFromPairs_data (lexicon : List LexiconEntry)
    (ps : List (List Char × List Char)) :
    (concatSegs (segsFromPairs lexicon ps)).data = pairsFlat ps := by
  induction ps with
  | nil => rfl
  | cons pm ps ih =>
    obtain ⟨pre, m⟩ := pm
    by_cases hpre : pre = []
    · simp only [segsFromPairs, if_pos hpre, List.nil_append, concatSegs,
        strData_append, ih, pairsFlat_cons, hpre]
    · simp only [segsFromPairs, if_neg hpre, List.singleton_append, concatSegs,
        strData_append, ih, pairsFlat_cons, List.append_assoc]

theorem segsFromPairs_fillers (lexicon : List LexiconEntry)
    (ps : List (List Char × List Char)) :
    ((segsFromPairs lexicon ps).filter fun s => s.isFiller).length = ps.length := by
  induction ps with
  | nil => rfl
  | cons pm ps ih =>
    obtain ⟨pre, m⟩ := pm
    by_cases hpre : pre = []
    · simp [segsFromPairs, hpre, List.filter_cons, ih]
    · simp [segsFromPairs, hpre, List.filter_cons, ih]

theorem segsFromPairs_text_ne (lexicon : List LexiconEntry)
    (ps : List (List Char × List Char)) (hps : ∀ pm ∈ ps, pm.2 ≠ []) :
    ∀ s ∈ segsFromPairs lexicon ps, s.text ≠ "" := by
  induction ps with
  | nil => intro s hs; simp [segsFromPairs] at hs
  | cons pm ps ih =>
    obtain ⟨pre, m⟩ := pm
    intro s hs
    have hm : m ≠ [] := hps (pre, m) (List.mem_cons_self ..)
    by_cases hpre : pre = []
    · rw [segsFromPairs, if_pos hpre, List.nil_append] at hs
      rcases List.mem_cons.mp hs with heq | hmem
      · subst heq
        simpa [strMk_eq_empty_iff] using hm
      · exact ih (fun q hq => hps q (List.mem_cons_of_mem _ hq)) s hmem
    · rw [segsFromPairs, if_neg hpre, List.singleton_append] at hs
      rcases List.mem_cons.mp hs with heq | hs'
      · subst heq
        simpa [strMk_eq_empty_iff] using hpre
      · rcases List.mem_cons.mp hs' with heq | hmem
        · subst heq
          simpa [strMk_eq_empty_iff] using hm
        · exact ih (fun q hq => hps q (List.mem_cons_of_mem _ hq)) s hmem

theorem segsFromPairs_ne_nil (lexicon : List LexiconEntry)
    (pm : List Char × List Char) (ps : List (List Char × List Char)) :
    segsFromPairs lexicon (pm :: ps) ≠ [] := by
  obtain ⟨pre, m⟩ := pm
  by_cases hpre : pre = [] <;>
    simp [segsFromPairs, hpre]

theorem trimData_nil : trimData ([] : List Char) = [] := rfl

theorem ne_nil_of_trimData {l : List Char} (h : trimData l ≠ []) : l ≠ [] := by
  intro hl
  subst hl
  exact h trimData_nil

theorem highlightMain_ne_nil (lexicon : List LexiconEntry) (text : String)
    (h : text.data ≠ []) : highlightMain lexicon text ≠ [] := by
  unfold highlightMain
  cases hps : (rawScan (termsOf lexicon) none [] text.data).1 with
  | nil =>
    have hc := @rawScan_concat (termsOf lexicon) none [] text.data
    rw [hps] at hc
    simp only [pairsFlat, List.foldr_nil, List.nil_append, List.reverse_nil] at hc
    have h2 : (rawScan (termsOf lexicon) none [] text.data).2 ≠ [] := by
      rw [hc]; exact h
    rw [if_neg h2]
    simp [segsFromPairs, hps]
  | cons pm ps =>
    intro hcontr
    obtain ⟨h1, -⟩ := List.append_eq_nil.mp hcontr
    exact segsFromPairs_ne_nil lexicon pm ps h1

/-- For text with non-whitespace content the highlighter takes the scanning
branch. -/
theorem getHighlightedTranscript_main (lexiconData : List LexiconEntry)
    (text : String) (language : String) (h : trimData text.data ≠ []) :
    getHighlightedTranscript lexiconData text language =
      highlightMain (getLexiconForLanguage lexiconData language) text := by
  unfold getHighlightedTranscript
  rw [if_neg h,
    if_neg (highlightMain_ne_nil (getLexiconForLanguage lexiconData language) text
      (ne_nil_of_trimData h))]

/-- C1, counterexample to the claim as stated: the input `" "` is non-empty,
but `getHighlightedTranscript` returns the empty-sentinel segment for it
(whitespace-only text takes the blank-input branch), so the concatenation
of the segment texts is `""`, not the input. -/
theorem C1_counterexample_whitespace_only :
    getHighlightedTranscript [] " " "en" = [⟨"", false, none⟩] ∧
      concatSegs (getHighlightedTranscript [] " " "en") ≠ " " := by
  constructor
  · decide
  · decide

/-- Shared lossless-partition fact: for text with non-whitespace content the
segment texts concatenate back to the input. -/
theorem highlight_concat_eq (lexiconData : List LexiconEntry) (text : String)
    (language : String) (h : trimData text.data ≠ []) :
    concatSegs (getHighlightedTranscript lexiconData text language) = text := by
  rw [getHighlightedTranscript_main lexiconData text language h]
  apply strExt
  unfold highlightMain
  rw [concatSegs_data_append, segsFromPairs_data]
  have hc := @rawScan_concat
    (termsOf (getLexiconForLanguage lexiconData language)) none [] text.data
  simp only [List.reverse_nil, List.nil_append] at hc
  by_cases htr :
      (rawScan (termsOf (getLexiconForLanguage lexiconData language)) none [] text.data).2 = []
  · rw [if_pos htr]
    rw [htr, List.append_nil] at hc
    simpa [concatSegs] using hc
  · rw [if_neg htr]
    simpa [concatSegs, strData_append] using hc

/-- C1 (amended): for every lexicon, locale and input text with some
non-whitespace content (so the blank-input sentinel branch is not taken),
concatenating the `text` fields of the segments returned by
`getHighlightedTranscript` in order reproduces the input text exactly. -/
theorem C1_lossless_partition (lexiconData : List LexiconEntry) (text : String)
    (language : String) (h : trimData text.data ≠ []) :
    concatSegs (getHighlightedTranscript lexiconData text language) = text :=
  highlight_concat_eq lexiconData text language h

/-- C1, witness: the amended theorem at a concrete input. -/
theorem C1_witness :
    trimData ("hi um ok" : String).data ≠ [] ∧
      concatSegs (getHighlightedTranscript lexUm "hi um ok" "en") = "hi um ok" :=
  ⟨by decide, C1_lossless_partition lexUm "hi um ok" "en" (by decide)⟩

/-- C2, counterexample to the claim as stated: the claim requires an entry
whose only tag is `"en"` to be included for locale `"en-US"` (the tag is a
strict prefix of the locale followed by `"-"`, as the second conjunct
exhibits), but the filter excludes it. -/
theorem C2_counterexample_bare_tag_excluded :
    getLexiconForLanguage lexUm "en-US" = [] ∧
      ("en-US" : String).data = ("en" : String).data ++ '-' :: ("US" : String).data := by
  constructor
  · decide
  · decide

/-- C2 (amended): the filter is unidirectional on the prefix relation — an
entry is included iff its term is non-empty and at least one of its tags
exactly equals the requested locale or extends it after a `"-"` separator
(so a tag `"en-US"` is included for locale `"en"`, but a tag `"en"` is not
included for locale `"en-US"`). -/
theorem C2_locale_filter_membership (lexiconData : List LexiconEntry)
    (language : String) (e : LexiconEntry) :
    e ∈ getLexiconForLanguage lexiconData language ↔
      e ∈ lexiconData ∧ e.term ≠ "" ∧
        ∃ tag ∈ e.bcp47Tags,
          tag = language ∨ ∃ rest, tag.data = language.data ++ '-' :: rest := by
  unfold getLexiconForLanguage
  rw [List.mem_filter]
  have tagIff : ∀ tag : String,
      tagMatches tag language = true ↔
        (tag = language ∨ ∃ rest, tag.data = language.data ++ '-' :: rest) := by
    intro tag
    unfold tagMatches
    simp only [Bool.or_eq_true, beq_iff_eq, List.isPrefixOf_iff_prefix]
    constructor
    · rintro (heq | ⟨t, ht⟩)
      · exact Or.inl heq
      · exact Or.inr ⟨t, by rw [← ht]; simp⟩
    · rintro (heq | ⟨rest, hrest⟩)
      · exact Or.inl heq
      · exact Or.inr ⟨rest, by rw [hrest]; simp⟩
  constructor
  · rintro ⟨hmem, hp⟩
    simp only [Bool.and_eq_true, bne_iff_ne, List.any_eq_true] at hp
    obtain ⟨hterm, tag, htag, hmatch⟩ := hp
    exact ⟨hmem, hterm, tag, htag, (tagIff tag).mp hmatch⟩
  · rintro ⟨hmem, hterm, tag, htag, hmatch⟩
    refine ⟨hmem, ?_⟩
    simp only [Bool.and_eq_true, bne_iff_ne, List.any_eq_true]
    exact ⟨hterm, tag, htag, (tagIff tag).mpr hmatch⟩

/-- C3: the aggregate `totalFillerCount` (from `text.match` with the shared
regex) always equals the number of filler segments the highlighter produces
for the same text and locale. -/
theorem C3_fillerCount_matches_highlight (lexiconData : List LexiconEntry)
    (text : String) (duration : ℚ) (language : String) :
    (getSessionAnalysis lexiconData text duration language).totalFillerCount =
      ((getHighlightedTranscript lexiconData text language).filter
        fun s => s.isFiller).length := by
  by_cases h : trimData text.data = []
  · unfold getSessionAnalysis getHighlightedTranscript
    rw [if_pos h, if_pos h]
    rfl
  · rw [getHighlightedTranscript_main lexiconData text language h]
    unfold getSessionAnalysis
    rw [if_neg h]
    unfold highlightMain matchesJS
    by_cases htr :
        (rawScan (termsOf (getLexiconForLanguage lexiconData language)) none []
          text.data).2 = []
    · rw [if_pos htr]
      simp [segsFromPairs_fillers]
    · rw [if_neg htr]
      simp [List.filter_append, segsFromPairs_fillers]

/-- Bumping one category raises the tally total by exactly one. -/
theorem bumpCount_sum (acc : List (String × Nat)) (c : String) :
    sumCounts (bumpCount acc c) = sumCounts acc + 1 := by
  induction acc with
  | nil => rfl
  | cons kv rest ih =>
    obtain ⟨k, v⟩ := kv
    by_cases hk : k = c
    · simp only [bumpCount, if_pos hk, sumCounts, List.map_cons, List.sum_cons]
      omega
    · simp only [bumpCount, if_neg hk, sumCounts, List.map_cons, List.sum_cons] at ih ⊢
      omega

/-- When every match resolves to a lexicon entry, the category tally counts
every match exactly once. -/
theorem countCatsAux_sum (lexicon : List LexiconEntry) (ms : List (List Char)) :
    ∀ acc : List (String × Nat),
      (∀ m ∈ ms, (lexicon.find? fun e => foldKey e.term.data == foldKey m).isSome) →
      sumCounts (countCatsAux lexicon acc ms) = sumCounts acc + ms.length := by
  induction ms with
  | nil => intro acc _; rfl
  | cons m ms ih =>
    intro acc hall
    unfold countCatsAux
    cases hf : lexicon.find? fun e => foldKey e.term.data == foldKey m with
    | some e =>
      rw [ih (bumpCount acc e.category)
        (fun q hq => hall q (List.mem_cons_of_mem _ hq)), bumpCount_sum]
      simp only [List.length_cons]
      omega
    | none =>
      have := hall m (List.mem_cons_self ..)
      rw [hf] at this
      simp at this

/-- Every matched occurrence resolves: the match is case-insensitively equal
to some filtered term, so the (case-insensitive) lookup finds an entry. -/
theorem matchesJS_find_isSome (lexicon : List LexiconEntry) (text : String) :
    ∀ m ∈ matchesJS lexicon text,
      (lexicon.find? fun e => foldKey e.term.data == foldKey m).isSome := by
  intro m hm
  unfold matchesJS at hm
  obtain ⟨pm, hpm, hsnd⟩ := List.mem_map.mp hm
  obtain ⟨-, t, htmem, hkey⟩ := rawScan_pairs pm hpm
  obtain ⟨e, hemem, hterm⟩ := List.mem_map.mp htmem
  rw [List.find?_isSome]
  refine ⟨e, hemem, ?_⟩
  simp only [beq_iff_eq, hterm, ← hsnd, hkey]

/-- C4: the values of `categoryCounts` sum to `totalFillerCount` — every
match bumps exactly one category tally. -/
theorem C4_category_sum (lexiconData : List LexiconEntry) (text : String)
    (duration : ℚ) (language : String) :
    sumCounts ((getSessionAnalysis lexiconData text duration language).categoryCounts) =
      (getSessionAnalysis lexiconData text duration language).totalFillerCount := by
  by_cases h : trimData text.data = []
  · unfold getSessionAnalysis
    rw [if_pos h]
    rfl
  · unfold getSessionAnalysis
    rw [if_neg h]
    dsimp only
    simpa [sumCounts] using countCatsAux_sum _ _ []
      (matchesJS_find_isSome (getLexiconForLanguage lexiconData language) text)

/-- `ratFloor` agrees with the mathematical floor on `ℚ`. -/
theorem ratFloor_eq_floor (q : ℚ) : ratFloor q = ⌊q⌋ := by
  unfold ratFloor
  rw [Int.fdiv_eq_ediv _ (Int.natCast_nonneg _)]
  exact Rat.floor_def.symm

theorem jsRound1_zero : jsRound1 0 = 0 := by
  unfold jsRound1
  rw [ratFloor_eq_floor,
    show ((0 : ℚ) * 10 + 1 / 2) = 1 / 2 by norm_num,
    show ⌊(1 / 2 : ℚ)⌋ = 0 from Int.floor_eq_zero_iff.mpr (by constructor <;> norm_num)]
  norm_num

theorem jsRound1_nonneg {q : ℚ} (hq : 0 ≤ q) : 0 ≤ jsRound1 q := by
  unfold jsRound1
  rw [ratFloor_eq_floor]
  apply div_nonneg _ (by norm_num)
  have h10 : (0 : ℚ) ≤ q * 10 + 1 / 2 := by
    have := mul_nonneg hq (show (0 : ℚ) ≤ 10 by norm_num)
    linarith
  exact_mod_cast Int.floor_nonneg.mpr h10

/-- C5: both entry points are total functions of their inputs and always
return a render-safe value: the highlighter yields at least one segment for
every input, and the aggregate rates are never negative, `NaN`-like or
undefined (the zero-denominator branches are explicit).  Exception
propagation cannot occur: in this embedding both entry points are total by
construction, matching the source's catch-and-degrade design. -/
theorem C5_total_and_render_safe (lexiconData : List LexiconEntry) (text : String)
    (duration : ℚ) (language : String) :
    getHighlightedTranscript lexiconData text language ≠ [] ∧
      0 ≤ (getSessionAnalysis lexiconData text duration language).fillersPerMinute ∧
      0 ≤ (getSessionAnalysis lexiconData text duration language).fillerDensityPercent := by
  refine ⟨?_, ?_, ?_⟩
  · by_cases h : trimData text.data = []
    · unfold getHighlightedTranscript
      rw [if_pos h]
      simp
    · rw [getHighlightedTranscript_main lexiconData text language h]
      exact highlightMain_ne_nil _ _ (ne_nil_of_trimData h)
  · by_cases h : trimData text.data = []
    · unfold getSessionAnalysis
      rw [if_pos h]
    · unfold getSessionAnalysis
      rw [if_neg h]
      dsimp only
      apply jsRound1_nonneg
      split
      · next hd => exact div_nonneg (by positivity) (le_of_lt hd)
      · exact le_refl 0
  · by_cases h : trimData text.data = []
    · unfold getSessionAnalysis
      rw [if_pos h]
    · unfold getSessionAnalysis
      rw [if_neg h]
      dsimp only
      apply jsRound1_nonneg
      split
      · positivity
      · exact le_refl 0

/-- C6, counterexample to the claim as stated: `"\t"` is a non-empty text in
which the matcher finds zero occurrences, yet the highlighter returns the
empty sentinel segment (whitespace-only input takes the blank branch), not
one segment containing the entire input. -/
theorem C6_counterexample_whitespace_only :
    (rawScan (termsOf (getLexiconForLanguage [] "en")) none [] ("\t" : String).data).1 = [] ∧
      getHighlightedTranscript [] "\t" "en" = [⟨"", false, none⟩] ∧
      getHighlightedTranscript [] "\t" "en" ≠ [⟨"\t", false, none⟩] := by
  refine ⟨by decide, by decide, by decide⟩

/-- C6 (amended): when the locale filter leaves no entries, the matcher
matches nothing at any position of any input (in particular it never
matches the empty string and never matches everything); and whenever the
scan finds zero occurrences in a text with non-whitespace content,
`getHighlightedTranscript` returns exactly one non-filler segment holding
the entire input and `getSessionAnalysis` reports `totalFillerCount = 0`. -/
theorem C6_empty_matcher_no_match (lexiconData : List LexiconEntry)
    (language : String) (text : String) (duration : ℚ) :
    (getLexiconForLanguage lexiconData language = [] →
      ∀ (prev : Option Char) (s : List Char),
        tryTermsAt (termsOf (getLexiconForLanguage lexiconData language)) prev s = none) ∧
    (trimData text.data ≠ [] →
      (rawScan (termsOf (getLexiconForLanguage lexiconData language)) none [] text.data).1 = [] →
      getHighlightedTranscript lexiconData text language = [⟨text, false, none⟩] ∧
        (getSessionAnalysis lexiconData text duration language).totalFillerCount = 0) := by
  constructor
  · intro hfil prev s
    rw [hfil]
    rfl
  · intro h hzero
    have hc := @rawScan_concat
      (termsOf (getLexiconForLanguage lexiconData language)) none [] text.data
    rw [hzero] at hc
    simp only [pairsFlat, List.foldr_nil, List.nil_append, List.reverse_nil] at hc
    constructor
    · rw [getHighlightedTranscript_main lexiconData text language h]
      unfold highlightMain
      rw [hzero]
      have h2 : (rawScan (termsOf (getLexiconForLanguage lexiconData language)) none []
          text.data).2 ≠ [] := by
        rw [hc]
        exact ne_nil_of_trimData h
      rw [if_neg h2, hc]
      simp only [segsFromPairs, List.nil_append, strMk_data]
    · unfold getSessionAnalysis
      rw [if_neg h]
      dsimp only
      unfold matchesJS
      rw [hzero]
      rfl

/-- C6, witness: a French-only lexicon filtered for locale `"en"` is empty,
and a clean sentence yields one whole-text non-filler segment and a zero
filler count. -/
theorem C6_witness :
    getLexiconForLanguage lexFr "en" = [] ∧
      getHighlightedTranscript lexFr "clean text" "en" = [⟨"clean text", false, none⟩] ∧
      (getSessionAnalysis lexFr "clean text" 1 "en").totalFillerCount = 0 :=
  ⟨by decide,
    ((C6_empty_matcher_no_match lexFr "en" "clean text" 1).2 (by decide) (by decide)).1,
    ((C6_empty_matcher_no_match lexFr "en" "clean text" 1).2 (by decide) (by decide)).2⟩

/-- C7: `getSessionAnalysis` never divides by a non-positive duration —
`fillersPerMinute` is exactly `0` for every duration `≤ 0` (including `0`
and negative values), and equals `totalFillerCount / duration` rounded to
one decimal place whenever `duration > 0`. -/
theorem C7_zero_duration_safety (lexiconData : List LexiconEntry) (text : String)
    (language : String) (duration : ℚ) :
    (duration ≤ 0 →
      (getSessionAnalysis lexiconData text duration language).fillersPerMinute = 0) ∧
    (0 < duration →
      (getSessionAnalysis lexiconData text duration language).fillersPerMinute =
        jsRound1
          (((getSessionAnalysis lexiconData text duration language).totalFillerCount : ℚ) /
            duration)) := by
  by_cases h : trimData text.data = []
  · unfold getSessionAnalysis
    rw [if_pos h]
    dsimp only
    constructor
    · intro _
      rfl
    · intro _
      rw [show ((0 : ℕ) : ℚ) = 0 by norm_num, zero_div, jsRound1_zero]
  · unfold getSessionAnalysis
    rw [if_neg h]
    dsimp only
    constructor
    · intro hd
      rw [if_neg (not_lt.mpr hd), jsRound1_zero]
    · intro hd
      rw [if_pos hd]

/-- C7, witness: zero duration gives rate `0`; duration `2` gives the
rounded ratio. -/
theorem C7_witness :
    (getSessionAnalysis lexUm "um ok" 0 "en").fillersPerMinute = 0 ∧
      (getSessionAnalysis lexUm "um ok" 2 "en").fillersPerMinute =
        jsRound1 (((getSessionAnalysis lexUm "um ok" 2 "en").totalFillerCount : ℚ) / 2) :=
  ⟨(C7_zero_duration_safety lexUm "um ok" "en" 0).1 (le_refl 0),
    (C7_zero_duration_safety lexUm "um ok" "en" 2).2 (by norm_num)⟩

theorem jsSplitWS_ne_nil (l : List Char) : jsSplitWS l ≠ [] := by
  induction l with
  | nil => simp [jsSplitWS]
  | cons c cs ih =>
    by_cases hc : isWS c = true
    · cases cs with
      | nil => simp [jsSplitWS, hc]
      | cons d ds =>
        by_cases hd : isWS d = true
        · simpa [jsSplitWS, hc, hd] using ih
        · simp [jsSplitWS, hc, hd]
    · simp only [jsSplitWS, if_neg hc]
      cases hsp : jsSplitWS cs with
      | nil => simp
      | cons p ps => simp

/-- A text that is empty or starts with whitespace splits with an empty
first piece. -/
theorem jsSplitWS_head_empty :
    ∀ l : List Char, (l = [] ∨ ∃ d ds, l = d :: ds ∧ isWS d = true) →
      ∃ ps, jsSplitWS l = [] :: ps := by
  intro l
  induction l with
  | nil => intro _; exact ⟨[], rfl⟩
  | cons c cs ih =>
    rintro (h | ⟨d, ds, heq, hd⟩)
    · exact absurd h (by simp)
    · obtain ⟨rfl, rfl⟩ : c = d ∧ cs = ds := by
        injection heq with h1 h2; exact ⟨h1, h2⟩
      cases cs with
      | nil => exact ⟨jsSplitWS [], by simp [jsSplitWS, hd]⟩
      | cons d' ds' =>
        by_cases hd' : isWS d' = true
        · obtain ⟨ps, hps⟩ := ih (Or.inr ⟨d', ds', rfl, hd'⟩)
          exact ⟨ps, by rw [jsSplitWS, if_pos hd, if_pos hd']; exact hps⟩
        · exact ⟨jsSplitWS (d' :: ds'), by rw [jsSplitWS, if_pos hd, if_neg hd']⟩

/-- The split-and-filter word count agrees with the run counter, jointly
with the same fact for the tail pieces. -/
theorem jsSplitWS_count (l : List Char) :
    ((jsSplitWS l).filter fun w => !w.isEmpty).length = countTokensAux true l ∧
      (((jsSplitWS l).drop 1).filter fun w => !w.isEmpty).length =
        countTokensAux false l := by
  induction l with
  | nil => exact ⟨rfl, rfl⟩
  | cons c cs ih =>
    obtain ⟨ih1, ih2⟩ := ih
    by_cases hc : isWS c = true
    · cases cs with
      | nil =>
        constructor <;> simp [jsSplitWS, hc, countTokensAux]
      | cons d ds =>
        by_cases hd : isWS d = true
        · obtain ⟨ps, hps⟩ := jsSplitWS_head_empty (d :: ds) (Or.inr ⟨d, ds, rfl, hd⟩)
          have hsplit : jsSplitWS (c :: d :: ds) = jsSplitWS (d :: ds) := by
            rw [jsSplitWS, if_pos hc, if_pos hd]
          constructor
          · rw [hsplit, ih1]
            simp [countTokensAux, hc]
          · rw [hsplit, hps]
            rw [hps] at ih1
            simp only [List.drop_succ_cons, List.drop_zero]
            simp only [List.filter_cons] at ih1
            simpa [countTokensAux, hc] using ih1
        · have hsplit : jsSplitWS (c :: d :: ds) = [] :: jsSplitWS (d :: ds) := by
            rw [jsSplitWS, if_pos hc, if_neg hd]
          constructor
          · rw [hsplit]
            simp only [List.filter_cons, List.isEmpty_nil, Bool.not_true,
              Bool.false_eq_true, if_neg]
            simpa [countTokensAux, hc] using ih1
          · rw [hsplit]
            simp only [List.drop_succ_cons, List.drop_zero]
            simpa [countTokensAux, hc] using ih1
    · obtain ⟨p, ps, hps⟩ : ∃ p ps, jsSplitWS cs = p :: ps := by
        cases hsp : jsSplitWS cs with
        | nil => exact absurd hsp (jsSplitWS_ne_nil cs)
        | cons p ps => exact ⟨p, ps, rfl⟩
      have hsplit : jsSplitWS (c :: cs) = (c :: p) :: ps := by
        rw [jsSplitWS.eq_def]
        dsimp only
        rw [if_neg hc, hps]
      rw [hps] at ih1 ih2
      simp only [List.drop_succ_cons, List.drop_zero] at ih2
      constructor
      · rw [hsplit]
        simp only [List.filter_cons, List.isEmpty_cons, Bool.not_false, if_pos,
          List.length_cons]
        rw [ih2]
        simp only [countTokensAux, if_neg hc, if_true]
        omega
      · rw [hsplit]
        simp only [List.drop_succ_cons, List.drop_zero]
        rw [ih2]
        simp [countTokensAux, hc]

/-- C8: for text with non-whitespace content, `totalWordCount` is the
number of non-empty whitespace-delimited tokens of the trimmed text
(maximal non-whitespace runs), and `fillerDensityPercent` is the rounded
`(totalFillerCount / totalWordCount) * 100` when `totalWordCount > 0`,
else `0`. -/
theorem C8_word_count_density (lexiconData : List LexiconEntry) (text : String)
    (duration : ℚ) (language : String) (h : trimData text.data ≠ []) :
    (getSessionAnalysis lexiconData text duration language).totalWordCount =
        countTokens (trimData text.data) ∧
      (getSessionAnalysis lexiconData text duration language).fillerDensityPercent =
        (if 0 < (getSessionAnalysis lexiconData text duration language).totalWordCount then
          jsRound1
            ((((getSessionAnalysis lexiconData text duration language).totalFillerCount : ℚ) /
              ((getSessionAnalysis lexiconData text duration language).totalWordCount : ℚ)) * 100)
        else 0) := by
  unfold getSessionAnalysis
  rw [if_neg h]
  dsimp only
  constructor
  · exact (jsSplitWS_count (trimData text.data)).1
  · by_cases hwc : 0 < wordCountJS text
    · rw [if_pos hwc, if_pos hwc]
    · rw [if_neg hwc, if_neg hwc, jsRound1_zero]

/-- C8, witness: the amended statement at a concrete input with leading,
repeated and trailing whitespace. -/
theorem C8_witness :
    (getSessionAnalysis lexUm " um  two " 1 "en").totalWordCount =
        countTokens (trimData (" um  two " : String).data) ∧
      (getSessionAnalysis lexUm " um  two " 1 "en").fillerDensityPercent =
        (if 0 < (getSessionAnalysis lexUm " um  two " 1 "en").totalWordCount then
          jsRound1
            ((((getSessionAnalysis lexUm " um  two " 1 "en").totalFillerCount : ℚ) /
              ((getSessionAnalysis lexUm " um  two " 1 "en").totalWordCount : ℚ)) * 100)
        else 0) :=
  C8_word_count_density lexUm " um  two " 1 "en" (by decide)

/-- C10: blank input (empty or whitespace-only) yields exactly the empty
sentinel segment, and for every other input every returned segment has
non-empty text — so a result with more than one segment never contains an
empty segment. -/
theorem C10_no_empty_segments (lexiconData : List LexiconEntry) (text : String)
    (language : String) :
    (trimData text.data = [] →
      getHighlightedTranscript lexiconData text language = [⟨"", false, none⟩]) ∧
    (trimData text.data ≠ [] →
      ∀ s ∈ getHighlightedTranscript lexiconData text language, s.text ≠ "") := by
  constructor
  · intro h
    unfold getHighlightedTranscript
    rw [if_pos h]
  · intro h s hs
    rw [getHighlightedTranscript_main lexiconData text language h] at hs
    unfold highlightMain at hs
    rcases List.mem_append.mp hs with hs1 | hs2
    · exact segsFromPairs_text_ne _ _ (fun pm hpm => (rawScan_pairs pm hpm).1) s hs1
    · by_cases htr : (rawScan (termsOf (getLexiconForLanguage lexiconData language))
          none [] text.data).2 = []
      · rw [if_pos htr] at hs2
        simp at hs2
      · rw [if_neg htr] at hs2
        have := List.mem_singleton.mp hs2
        subst this
        simpa [strMk_eq_empty_iff] using htr

/-- C10, witness: blank input gives the sentinel; a mixed input has no
empty segment text. -/
theorem C10_witness :
    getHighlightedTranscript lexUm "  " "en" = [⟨"", false, none⟩] ∧
      ∀ s ∈ getHighlightedTranscript lexUm "a um b" "en", s.text ≠ "" :=
  ⟨(C10_no_empty_segments lexUm "  " "en").1 (by decide),
    (C10_no_empty_segments lexUm "a um b" "en").2 (by decide)⟩

theorem isWordChar_eq_of_charKey {a b : Char} (h : charKey a = charKey b) :
    isWordChar a = isWordChar b := by
  unfold charKey foldNat at h
  unfold isWordChar isWordCharNat
  rw [decide_eq_decide]
  split at h <;> split at h <;> omega

theorem optWord_eq_of_optKey {a b : Option Char} (h : optKey a = optKey b) :
    optWord a = optWord b := by
  cases a with
  | none =>
    cases b with
    | none => rfl
    | some c => simp [optKey] at h
  | some a' =>
    cases b with
    | none => simp [optKey] at h
    | some b' =>
      simp only [optKey, Option.map_some', Option.some.injEq] at h
      simpa [optWord] using isWordChar_eq_of_charKey h

theorem boundaryB_eq_of_optKey {a a' b b' : Option Char}
    (ha : optKey a = optKey a') (hb : optKey b = optKey b') :
    boundaryB a b = boundaryB a' b' := by
  unfold boundaryB
  rw [optWord_eq_of_optKey ha, optWord_eq_of_optKey hb]

theorem optKey_head (s : List Char) : optKey s.head? = (foldKey s).head? := by
  unfold optKey foldKey
  rw [List.head?_map]

theorem optKey_getLast (s : List Char) : optKey s.getLast? = (foldKey s).getLast? := by
  unfold optKey foldKey
  rw [List.getLast?_map]

theorem foldKey_append (a b : List Char) :
    foldKey (a ++ b) = foldKey a ++ foldKey b := by
  unfold foldKey
  exact List.map_append ..

theorem foldKey_reverse (a : List Char) : foldKey a.reverse = (foldKey a).reverse := by
  unfold foldKey
  exact List.map_reverse ..

theorem splitCI_key {s₁ s₂ : List Char} (t : List Char)
    (h : foldKey s₁ = foldKey s₂) :
    (splitCI s₁ t).map pairKey = (splitCI s₂ t).map pairKey := by
  induction t generalizing s₁ s₂ with
  | nil =>
    simp only [splitCI, Option.map_some', pairKey, Option.some.injEq, Prod.mk.injEq]
    exact ⟨trivial, h⟩
  | cons t ts ih =>
    cases s₁ with
    | nil =>
      cases s₂ with
      | nil => rfl
      | cons b bs => simp [foldKey] at h
    | cons a as =>
      cases s₂ with
      | nil => simp [foldKey] at h
      | cons b bs =>
        simp only [foldKey, List.map_cons, List.cons.injEq] at h
        obtain ⟨hab, hrest⟩ := h
        simp only [splitCI]
        have hch : chEq a t = chEq b t := by
          unfold chEq
          rw [hab]
        rw [← hch]
        by_cases hc : chEq a t = true
        · rw [if_pos hc, if_pos hc]
          have hs := ih hrest
          cases h1 : splitCI as ts with
          | none =>
            cases h2 : splitCI bs ts with
            | none => rfl
            | some mr =>
              rw [h1, h2] at hs
              simp at hs
          | some mr₁ =>
            cases h2 : splitCI bs ts with
            | none =>
              rw [h1, h2] at hs
              simp at hs
            | some mr₂ =>
              obtain ⟨m₁, r₁⟩ := mr₁
              obtain ⟨m₂, r₂⟩ := mr₂
              rw [h1, h2] at hs
              simp only [Option.map_some', Option.some.injEq, pairKey,
                Prod.mk.injEq] at hs
              obtain ⟨hm, hr⟩ := hs
              simp only [Option.map_some', Option.some.injEq, pairKey,
                Prod.mk.injEq, foldKey, List.map_cons] at hm hr ⊢
              exact ⟨by rw [hab, hm], hr⟩
        · rw [if_neg hc, if_neg hc]

theorem tryTermAt_key {prev₁ prev₂ : Option Char} {s₁ s₂ : List Char}
    (t : List Char) (hp : optKey prev₁ = optKey prev₂)
    (hs : foldKey s₁ = foldKey s₂) :
    (tryTermAt prev₁ s₁ t).map pairKey = (tryTermAt prev₂ s₂ t).map pairKey := by
  unfold tryTermAt
  by_cases ht : t = []
  · rw [if_pos ht, if_pos ht]
  · rw [if_neg ht, if_neg ht]
    have hb : boundaryB prev₁ s₁.head? = boundaryB prev₂ s₂.head? :=
      boundaryB_eq_of_optKey hp (by rw [optKey_head, optKey_head, hs])
    rw [← hb]
    by_cases hbb : boundaryB prev₁ s₁.head? = true
    · rw [if_pos hbb, if_pos hbb]
      have hsp := splitCI_key t hs
      cases h1 : splitCI s₁ t with
      | none =>
        cases h2 : splitCI s₂ t with
        | none => rfl
        | some mr =>
          rw [h1, h2] at hsp
          simp at hsp
      | some mr₁ =>
        cases h2 : splitCI s₂ t with
        | none =>
          rw [h1, h2] at hsp
          simp at hsp
        | some mr₂ =>
          obtain ⟨m₁, r₁⟩ := mr₁
          obtain ⟨m₂, r₂⟩ := mr₂
          rw [h1, h2] at hsp
          simp only [Option.map_some', Option.some.injEq, pairKey,
            Prod.mk.injEq] at hsp
          obtain ⟨hm, hr⟩ := hsp
          dsimp only
          have hb2 : boundaryB m₁.getLast? r₁.head? = boundaryB m₂.getLast? r₂.head? :=
            boundaryB_eq_of_optKey (by rw [optKey_getLast, optKey_getLast, hm])
              (by rw [optKey_head, optKey_head, hr])
          rw [← hb2]
          by_cases h3 : boundaryB m₁.getLast? r₁.head? = true
          · rw [if_pos h3, if_pos h3]
            simp [pairKey, hm, hr]
          · rw [if_neg h3, if_neg h3]
    · rw [if_neg hbb, if_neg hbb]

theorem tryTermsAt_key {terms : List (List Char)} {prev₁ prev₂ : Option Char}
    {s₁ s₂ : List Char} (hp : optKey prev₁ = optKey prev₂)
    (hs : foldKey s₁ = foldKey s₂) :
    (tryTermsAt terms prev₁ s₁).map pairKey =
      (tryTermsAt terms prev₂ s₂).map pairKey := by
  induction terms with
  | nil => rfl
  | cons t ts ih =>
    simp only [tryTermsAt]
    have h1 := tryTermAt_key t hp hs
    cases ha : tryTermAt prev₁ s₁ t with
    | some mr₁ =>
      cases hb : tryTermAt prev₂ s₂ t with
      | some mr₂ =>
        rw [ha, hb] at h1
        exact h1
      | none =>
        rw [ha, hb] at h1
        simp at h1
    | none =>
      cases hb : tryTermAt prev₂ s₂ t with
      | some mr₂ =>
        rw [ha, hb] at h1
        simp at h1
      | none => exact ih

theorem rawScanF_key {terms : List (List Char)} :
    ∀ {f : Nat} {prev₁ prev₂ : Option Char} {pend₁ pend₂ rest₁ rest₂ : List Char},
      optKey prev₁ = optKey prev₂ → foldKey pend₁ = foldKey pend₂ →
      foldKey rest₁ = foldKey rest₂ →
      (rawScanF f terms prev₁ pend₁ rest₁).1.map pairKey =
          (rawScanF f terms prev₂ pend₂ rest₂).1.map pairKey ∧
        foldKey (rawScanF f terms prev₁ pend₁ rest₁).2 =
          foldKey (rawScanF f terms prev₂ pend₂ rest₂).2 := by
  intro f
  induction f with
  | zero =>
    intro prev₁ prev₂ pend₁ pend₂ rest₁ rest₂ hp hpd hr
    simp only [rawScanF]
    exact ⟨trivial, by rw [foldKey_append, foldKey_append, foldKey_reverse,
      foldKey_reverse, hpd, hr]⟩
  | succ f ih =>
    intro prev₁ prev₂ pend₁ pend₂ rest₁ rest₂ hp hpd hr
    simp only [rawScanF]
    have htk := @tryTermsAt_key terms _ _ _ _ hp hr
    cases h1 : tryTermsAt terms prev₁ rest₁ with
    | some mr₁ =>
      cases h2 : tryTermsAt terms prev₂ rest₂ with
      | none =>
        rw [h1, h2] at htk
        simp at htk
      | some mr₂ =>
        obtain ⟨m₁, r₁⟩ := mr₁
        obtain ⟨m₂, r₂⟩ := mr₂
        rw [h1, h2] at htk
        simp only [Option.map_some', Option.some.injEq, pairKey,
          Prod.mk.injEq] at htk
        obtain ⟨hm, hrr⟩ := htk
        dsimp only
        obtain ⟨hrec1, hrec2⟩ := @ih m₁.getLast? m₂.getLast? [] [] r₁ r₂
          (by rw [optKey_getLast, optKey_getLast, hm]) rfl hrr
        refine ⟨?_, hrec2⟩
        simp only [List.map_cons, pairKey, hrec1, List.cons.injEq, Prod.mk.injEq,
          and_true]
        exact ⟨by rw [foldKey_reverse, foldKey_reverse, hpd], hm⟩
    | none =>
      cases h2 : tryTermsAt terms prev₂ rest₂ with
      | some mr₂ =>
        rw [h1, h2] at htk
        simp at htk
      | none =>
        dsimp only
        cases rest₁ with
        | nil =>
          cases rest₂ with
          | nil =>
            exact ⟨rfl, by rw [foldKey_reverse, foldKey_reverse, hpd]⟩
          | cons b bs => simp [foldKey] at hr
        | cons a as =>
          cases rest₂ with
          | nil => simp [foldKey] at hr
          | cons b bs =>
            simp only [foldKey, List.map_cons, List.cons.injEq] at hr
            obtain ⟨hab, hrest⟩ := hr
            exact ih (by simp [optKey, hab])
              (by simp only [foldKey, List.map_cons] at hpd ⊢; rw [hab, hpd]) hrest

theorem rawScan_key {terms : List (List Char)} {prev₁ prev₂ : Option Char}
    {pend₁ pend₂ rest₁ rest₂ : List Char} (hp : optKey prev₁ = optKey prev₂)
    (hpd : foldKey pend₁ = foldKey pend₂) (hr : foldKey rest₁ = foldKey rest₂) :
    (rawScan terms prev₁ pend₁ rest₁).1.map pairKey =
        (rawScan terms prev₂ pend₂ rest₂).1.map pairKey ∧
      foldKey (rawScan terms prev₁ pend₁ rest₁).2 =
        foldKey (rawScan terms prev₂ pend₂ rest₂).2 := by
  unfold rawScan
  rw [foldKey_length hr]
  exact rawScanF_key hp hpd hr

theorem lookupCategory_key (lexicon : List LexiconEntry) {m₁ m₂ : List Char}
    (h : foldKey m₁ = foldKey m₂) :
    lookupCategory lexicon m₁ = lookupCategory lexicon m₂ := by
  unfold lookupCategory
  rw [show (fun e : LexiconEntry => foldKey e.term.data == foldKey m₁) =
      (fun e : LexiconEntry => foldKey e.term.data == foldKey m₂) from
    funext fun e => by rw [h]]

theorem segsFromPairs_key (lexicon : List LexiconEntry) :
    ∀ {ps₁ ps₂ : List (List Char × List Char)},
      ps₁.map pairKey = ps₂.map pairKey →
      (segsFromPairs lexicon ps₁).map segKey =
        (segsFromPairs lexicon ps₂).map segKey := by
  intro ps₁
  induction ps₁ with
  | nil =>
    intro ps₂ h
    cases ps₂ with
    | nil => rfl
    | cons pm ps => simp at h
  | cons pm₁ ps₁ ih =>
    intro ps₂ h
    cases ps₂ with
    | nil => simp at h
    | cons pm₂ ps₂ =>
      obtain ⟨pre₁, m₁⟩ := pm₁
      obtain ⟨pre₂, m₂⟩ := pm₂
      simp only [List.map_cons, List.cons.injEq, pairKey, Prod.mk.injEq] at h
      obtain ⟨⟨hpre, hm⟩, hrest⟩ := h
      have hih := ih hrest
      have hlen := foldKey_length hpre
      by_cases hp1 : pre₁ = []
      · have hp2 : pre₂ = [] := by
          rw [hp1] at hlen
          exact List.length_eq_zero.mp hlen.symm
        rw [segsFromPairs, segsFromPairs, if_pos hp1, if_pos hp2]
        simp only [List.nil_append, List.map_cons, segKey, hih,
          List.cons.injEq, Prod.mk.injEq, and_true, true_and]
        exact ⟨hm, lookupCategory_key lexicon hm⟩
      · have hp2 : pre₂ ≠ [] := by
          intro hc
          apply hp1
          rw [hc] at hlen
          exact List.length_eq_zero.mp hlen
        rw [segsFromPairs, segsFromPairs, if_neg hp1, if_neg hp2]
        simp only [List.singleton_append, List.map_cons, segKey, hih,
          List.cons.injEq, Prod.mk.injEq, and_true, true_and]
        exact ⟨hpre, hm, lookupCategory_key lexicon hm⟩

/-- C9, counterexample to the claim as stated: with overlapping multi-word
terms `"aa bb"` and `"bb cc"` (both locale-matching), the text
`"aa bb cc"` contains a word-bounded occurrence of the lexicon term
`"bb cc"` (second conjunct), yet the scan emits no filler segment whose
text is any casing of `"bb cc"` — the earlier alternative consumed the
overlap, an ambiguity the spec itself flags in §4.2/§9. -/
theorem C9_counterexample_overlap :
    getHighlightedTranscript
        [⟨"DISCOURSE_MARKER", "aa bb", "en", ["en"], ""⟩,
          ⟨"DISCOURSE_MARKER", "bb cc", "en", ["en"], ""⟩] "aa bb cc" "en" =
        [⟨"aa bb", true, some "DISCOURSE_MARKER"⟩, ⟨" cc", false, none⟩] ∧
      ("aa bb cc" : String) = "aa " ++ "bb cc" ∧
      ((getHighlightedTranscript
          [⟨"DISCOURSE_MARKER", "aa bb", "en", ["en"], ""⟩,
            ⟨"DISCOURSE_MARKER", "bb cc", "en", ["en"], ""⟩] "aa bb cc" "en").all
        fun s => !(s.isFiller && foldKey s.text.data == foldKey ("bb cc" : String).data))
        = true := by
  refine ⟨by decide, by decide, by decide⟩

/-- C9 (amended): matching is case-insensitive — two inputs equal up to
ASCII case yield segmentations of identical shape (same number of
segments, same filler flags, same categories, texts equal up to case) —
and casing-preserving: the emitted segment texts are the original
substrings of the input (they concatenate back to the input, not to the
lexicon's casing of the terms).  An occurrence overlapping an earlier
match of the left-to-right scan may be skipped (the alternation ambiguity
the spec accepts). -/
theorem C9_case_insensitive_casing_preserved (lexiconData : List LexiconEntry)
    (language : String) (s₁ s₂ : String) (h₁ : trimData s₁.data ≠ [])
    (h₂ : trimData s₂.data ≠ []) (hkey : foldKey s₁.data = foldKey s₂.data) :
    (getHighlightedTranscript lexiconData s₁ language).map segKey =
        (getHighlightedTranscript lexiconData s₂ language).map segKey ∧
      concatSegs (getHighlightedTranscript lexiconData s₁ language) = s₁ := by
  refine ⟨?_, highlight_concat_eq lexiconData s₁ language h₁⟩
  rw [getHighlightedTranscript_main lexiconData s₁ language h₁,
    getHighlightedTranscript_main lexiconData s₂ language h₂]
  unfold highlightMain
  obtain ⟨hpairs, htr⟩ := @rawScan_key
    (termsOf (getLexiconForLanguage lexiconData language))
    none none [] [] s₁.data s₂.data rfl rfl hkey
  rw [List.map_append, List.map_append, segsFromPairs_key _ hpairs]
  have hlen := foldKey_length htr
  by_cases ht1 : (rawScan (termsOf (getLexiconForLanguage lexiconData language))
      none [] s₁.data).2 = []
  · have ht2 : (rawScan (termsOf (getLexiconForLanguage lexiconData language))
        none [] s₂.data).2 = [] := by
      rw [ht1] at hlen
      exact List.length_eq_zero.mp hlen.symm
    rw [if_pos ht1, if_pos ht2]
  · have ht2 : (rawScan (termsOf (getLexiconForLanguage lexiconData language))
        none [] s₂.data).2 ≠ [] := by
      intro hc
      apply ht1
      rw [hc] at hlen
      exact List.length_eq_zero.mp hlen
    rw [if_neg ht1, if_neg ht2]
    simp only [List.map_cons, List.map_nil, segKey]
    rw [htr]

/-- C9, witness: `"UM x"` and `"um X"` are equal up to ASCII case; the
segmentations agree up to case and the first input is reproduced with its
own casing. -/
theorem C9_witness :
    (getHighlightedTranscript lexUm "UM x" "en").map segKey =
        (getHighlightedTranscript lexUm "um X" "en").map segKey ∧
      concatSegs (getHighlightedTranscript lexUm "UM x" "en") = "UM x" :=
  C9_case_insensitive_casing_preserved lexUm "en" "UM x" "um X"
    (by decide) (by decide) (by decide)

end Crutchwords
